import Mathlib

/-!
Verification of the explosive-synchronization simulation notebooks
(`sync/explosive_sync/explosive_sync_piecewise_Rossler.ipynb`): a piecewise
Rossler sweep and an adaptive Kuramoto sweep.  The numpy code is embedded
shallowly: arrays become lists or functions out of `Fin n`, in-place updates
become returned values, and the float arithmetic is carried out in `ℚ` where
the dynamics is rational and in `ℝ` where it is transcendental.
-/

namespace PaperRepeat

/-- Classical fourth-order Runge-Kutta step, embedding the notebook function
`RK4(fun, x0, t, dt, *args)`: four evaluations of the vector field combined
with weights 1:2:2:1 scaled by `dt/6`.  The numpy in-place update
`x0 += (dt/6.)*(k1 + 2*k2 + 2*k3 + k4)` is modelled by returning the new
state value. -/
def RK4 {K σ : Type} [Field K] [Add σ] [SMul K σ]
    (f : σ → K → σ) (x0 : σ) (t dt : K) : σ :=
  let k1 := f x0 t
  let k2 := f (x0 + (dt / 2) • k1) (t + dt / 2)
  let k3 := f (x0 + (dt / 2) • k2) (t + dt / 2)
  let k4 := f (x0 + dt • k3) (t + dt)
  x0 + (dt / 6) • (k1 + (2 : K) • k2 + (2 : K) • k3 + k4)

/-- Heun (explicit trapezoidal) step, embedding the notebook function
`Heun(fun, x0, t, dt, *args)`: slope at the current point, a forward-Euler
predictor to `t+dt`, slope there, and the update
`x0 += 0.5 * dt * (k1 + k2)`. -/
def Heun {K σ : Type} [Field K] [Add σ] [SMul K σ]
    (f : σ → K → σ) (x0 : σ) (t dt : K) : σ :=
  let k1 := f x0 t
  let x_pred := x0 + dt • k1
  let k2 := f x_pred (t + dt)
  x0 + ((1 / 2 : K) * dt) • (k1 + k2)

/-- Piecewise term of the Rossler field, embedding
`np.where(x <= 3., 0., mu*(x - 3.))` at a single scalar entry. -/
def g_x (mu x : ℚ) : ℚ := if x ≤ 3 then 0 else mu * (x - 3)

/-- Piecewise Rossler vector field `piecewise_Rossler(vars, t, I, alpha,
beta, R, mu, gamma)` from the notebook, at a single node; the numpy version
applies exactly these formulas elementwise to the stacked state matrix.
The literal `0.02` of the source is the rational `2/100`.  The time argument
`t` is accepted and ignored, as in the source. -/
def piecewise_Rossler (vars : ℚ × ℚ × ℚ) (t I alpha beta R mu gamma : ℚ) :
    ℚ × ℚ × ℚ :=
  let x := vars.1
  let y := vars.2.1
  let z := vars.2.2
  (gamma * (-alpha * (x - I) - z - beta * y),
   gamma * (x - (2 / 100 - 10 / R) * y),
   gamma * (g_x mu x - z))

/-- Reference field written from the spec formulas for claim C2:
`dx/dt = γ(−α(x−I) − z − βy)`, `dy/dt = γ(x − (c₀ − c₁/R)y)` with
`c₀ = 0.02` and `c₁ = 10`, `dz/dt = γ(g(x) − z)` with `g(x) = 0` for
`x ≤ 3` and `g(x) = μ(x−3)` otherwise. -/
def rosslerSpecField (x y z I alpha beta R mu gamma : ℚ) : ℚ × ℚ × ℚ :=
  let c0 : ℚ := 2 / 100
  let c1 : ℚ := 10
  (gamma * (-alpha * (x - I) - z - beta * y),
   gamma * (x - (c0 - c1 / R) * y),
   gamma * ((if x ≤ 3 then 0 else mu * (x - 3)) - z))

/-- C2: for every state (x, y, z), coupling input I and parameters, the
piecewise Rossler vector field returns exactly the spec formulas, with
c₀ = 0.02 and c₁ = 10, and the piecewise term has its threshold at exactly
x = 3: it vanishes for x ≤ 3 (in particular at x = 3 itself) and equals
μ(x−3) for x > 3, with no smoothing. -/
theorem piecewise_Rossler_matches_spec (x y z t I alpha beta R mu gamma : ℚ) :
    piecewise_Rossler (x, y, z) t I alpha beta R mu gamma
      = rosslerSpecField x y z I alpha beta R mu gamma
    ∧ g_x mu 3 = 0
    ∧ (x ≤ 3 → g_x mu x = 0)
    ∧ (3 < x → g_x mu x = mu * (x - 3)) := by
  refine ⟨rfl, ?_, ?_, ?_⟩
  · simp [g_x]
  · intro h
    simp [g_x, h]
  · intro h
    simp [g_x, not_le.mpr h]

/-- Witness for C2 at concrete inputs on both sides of the threshold. -/
theorem piecewise_Rossler_matches_spec_witness :
    g_x 15 2 = 0 ∧ g_x 15 4 = 15 * (4 - 3) := by
  constructor
  · exact (piecewise_Rossler_matches_spec 2 0 0 0 0 (1/20) (1/2) 100 15 1).2.2.1
      (by norm_num)
  · exact (piecewise_Rossler_matches_spec 4 0 0 0 0 (1/20) (1/2) 100 15 1).2.2.2
      (by norm_num)

/-- Output length of `np.bincount(ids, minlength=m)`: the maximum of
`minlength` and (largest id + 1), and `minlength` itself for empty `ids`. -/
def bincountLen (ids : List ℕ) (minlength : ℕ) : ℕ :=
  ids.foldl (fun m i => max m (i + 1)) minlength

/-- Embedding of `np.bincount(ids, weights=ws, minlength=m)`: starting from a
zero array, each weight is accumulated at its index. -/
def bincount (ids : List ℕ) (ws : List ℚ) (minlength : ℕ) : List ℚ :=
  (ids.zip ws).foldl (fun a p => a.set p.1 (a.getD p.1 0 + p.2))
    (List.replicate (bincountLen ids minlength) 0)

/-- Embedding of the coupling evaluator
`coupling_func(vars, weight, pre_ids, post_ids)`: pairwise diffusive currents
`weight * (vars[pre_ids] - vars[post_ids])` summed by target index with
`np.bincount(post_ids, weights=currents, minlength=len(vars))`. -/
def coupling_func (vars : List ℚ) (weight : ℚ) (pre_ids post_ids : List ℕ) :
    List ℚ :=
  let currents :=
    List.zipWith (fun p q => weight * (vars.getD p 0 - vars.getD q 0)) pre_ids post_ids
  bincount post_ids currents vars.length

lemma bincountLen_of_lt : ∀ {ids : List ℕ} {n : ℕ},
    (∀ i ∈ ids, i < n) → bincountLen ids n = n := by
  intro ids
  induction ids with
  | nil => intro n _; rfl
  | cons i tl ih =>
      intro n h
      have hi : i + 1 ≤ n := h i (List.mem_cons_self i tl)
      show List.foldl (fun m i => max m (i + 1)) (max n (i + 1)) tl = n
      rw [Nat.max_eq_left hi]
      exact ih (fun j hj => h j (List.mem_cons_of_mem i hj))

lemma getD_replicate_zero (n j : ℕ) : (List.replicate n (0 : ℚ)).getD j 0 = 0 := by
  by_cases h : j < n
  · rw [List.getD_eq_getElem _ _ (by simpa using h)]
    simp
  · rw [List.getD_eq_default]
    simpa using Nat.le_of_not_lt h

lemma foldl_add_set_length (pairs : List (ℕ × ℚ)) (acc : List ℚ) :
    (pairs.foldl (fun a p => a.set p.1 (a.getD p.1 0 + p.2)) acc).length
      = acc.length := by
  induction pairs generalizing acc with
  | nil => rfl
  | cons p tl ih =>
      simp only [List.foldl_cons]
      rw [ih]
      simp

lemma foldl_add_set_getD (pairs : List (ℕ × ℚ)) (acc : List ℚ) (j : ℕ)
    (hj : j < acc.length) :
    (pairs.foldl (fun a p => a.set p.1 (a.getD p.1 0 + p.2)) acc).getD j 0
      = acc.getD j 0 + ((pairs.filter (fun p => p.1 == j)).map Prod.snd).sum := by
  induction pairs generalizing acc with
  | nil => simp
  | cons p tl ih =>
      simp only [List.foldl_cons]
      rw [ih _ (by simpa using hj)]
      by_cases hc : p.1 = j
      · subst hc
        rw [List.filter_cons_of_pos (by simp)]
        have hset : (acc.set p.1 (acc.getD p.1 0 + p.2)).getD p.1 0
            = acc.getD p.1 0 + p.2 := by
          rw [List.getD_eq_getElem _ _ (by simpa using hj)]
          exact List.getElem_set_self (by simpa using hj)
        rw [hset]
        simp [add_assoc]
      · rw [List.filter_cons_of_neg (by simpa using hc)]
        have hset : (acc.set p.1 (acc.getD p.1 0 + p.2)).getD j 0
            = acc.getD j 0 := by
          rw [List.getD_eq_getElem _ _ (by simpa using hj),
            List.getD_eq_getElem _ _ hj]
          exact List.getElem_set_ne hc (by simpa using hj)
        rw [hset]

lemma bincount_length (ids : List ℕ) (ws : List ℚ) (minlength : ℕ) :
    (bincount ids ws minlength).length = bincountLen ids minlength := by
  unfold bincount
  rw [foldl_add_set_length]
  simp

lemma bincount_getD (ids : List ℕ) (ws : List ℚ) (minlength j : ℕ)
    (hj : j < bincountLen ids minlength) :
    (bincount ids ws minlength).getD j 0
      = (((ids.zip ws).filter (fun p => p.1 == j)).map Prod.snd).sum := by
  unfold bincount
  rw [foldl_add_set_getD _ _ _ (by simpa using hj), getD_replicate_zero, zero_add]

lemma zip_currents_sum (vars : List ℚ) (weight : ℚ) (j : ℕ) :
    ∀ (pre post : List ℕ),
    (((post.zip (List.zipWith
          (fun p q => weight * (vars.getD p 0 - vars.getD q 0)) pre post)).filter
        (fun p => p.1 == j)).map Prod.snd).sum
      = (((pre.zip post).filter (fun e => e.2 == j)).map
          (fun e => weight * (vars.getD e.1 0 - vars.getD e.2 0))).sum := by
  intro pre
  induction pre with
  | nil => intro post; cases post <;> simp
  | cons a tl ih =>
      intro post
      cases post with
      | nil => simp
      | cons b tl2 =>
          simp only [List.zipWith_cons_cons, List.zip_cons_cons]
          by_cases hb : b = j
          · subst hb
            rw [List.filter_cons_of_pos (by simp),
              List.filter_cons_of_pos (by simp)]
            simp only [List.map_cons, List.sum_cons]
            rw [ih]
          · rw [List.filter_cons_of_neg (by simpa using hb),
              List.filter_cons_of_neg (by simpa using hb)]
            exact ih tl2

/-- C1: for every node-state array, scalar weight and edge list, the coupling
evaluator returns an array with one entry per node; entry j is the sum, over
all edges ending at j, of `weight * (state[source] - state[target])` on the
designated state component, and is exactly 0 for every node with no incoming
edge. -/
theorem coupling_func_correct (vars : List ℚ) (weight : ℚ)
    (pre_ids post_ids : List ℕ)
    (hlen : pre_ids.length = post_ids.length)
    (hpost : ∀ i ∈ post_ids, i < vars.length) :
    (coupling_func vars weight pre_ids post_ids).length = vars.length
    ∧ (∀ j, j < vars.length →
        (coupling_func vars weight pre_ids post_ids).getD j 0
          = (((pre_ids.zip post_ids).filter (fun e => e.2 == j)).map
              (fun e => weight * (vars.getD e.1 0 - vars.getD e.2 0))).sum)
    ∧ (∀ j, j < vars.length → j ∉ post_ids →
        (coupling_func vars weight pre_ids post_ids).getD j 0 = 0) := by
  have hbl : bincountLen post_ids vars.length = vars.length := bincountLen_of_lt hpost
  have hget : ∀ j, j < vars.length →
      (coupling_func vars weight pre_ids post_ids).getD j 0
        = (((pre_ids.zip post_ids).filter (fun e => e.2 == j)).map
            (fun e => weight * (vars.getD e.1 0 - vars.getD e.2 0))).sum := by
    intro j hj
    unfold coupling_func
    rw [bincount_getD _ _ _ _ (by rwa [hbl]), zip_currents_sum]
  refine ⟨?_, hget, ?_⟩
  · unfold coupling_func
    rw [bincount_length, hbl]
  · intro j hj hnot
    rw [hget j hj]
    have hfil : ((pre_ids.zip post_ids).filter (fun e => e.2 == j)) = [] := by
      rw [List.filter_eq_nil_iff]
      intro e he
      have := (List.of_mem_zip he).2
      simp only [beq_iff_eq]
      intro hej
      exact hnot (hej ▸ this)
    rw [hfil]
    simp

/-- Witness for C1: a three-node network in which node 2 has no incoming
edge; the returned array has one entry per node; the entry of node 2 is 0. -/
theorem coupling_func_correct_witness :
    (coupling_func [1, 2, 5] 2 [1, 2, 2] [0, 0, 1]).length = 3
    ∧ (coupling_func [1, 2, 5] 2 [1, 2, 2] [0, 0, 1]).getD 2 0 = 0 := by
  have h := coupling_func_correct [1, 2, 5] 2 [1, 2, 2] [0, 0, 1]
    (by decide) (by decide)
  exact ⟨h.1, h.2.2 2 (by decide) (by decide)⟩

/-- C3: one RK4 integrator call performs exactly four vector-field
evaluations, k1 at (x, t), k2 and k3 at predicted states at t + dt/2, k4 at
t + dt, and the resulting state is x + (dt/6)(k1 + 2 k2 + 2 k3 + k4). -/
theorem RK4_four_evaluations {K σ : Type} [Field K] [Add σ] [SMul K σ]
    (f : σ → K → σ) (x0 : σ) (t dt : K) :
    ∃ k1 k2 k3 k4 : σ,
      k1 = f x0 t ∧
      k2 = f (x0 + (dt / 2) • k1) (t + dt / 2) ∧
      k3 = f (x0 + (dt / 2) • k2) (t + dt / 2) ∧
      k4 = f (x0 + dt • k3) (t + dt) ∧
      RK4 f x0 t dt = x0 + (dt / 6) • (k1 + (2 : K) • k2 + (2 : K) • k3 + k4) :=
  ⟨_, _, _, _, rfl, rfl, rfl, rfl, rfl⟩

/-- Embedding of `order_parameter(vars)`:
`r = np.abs(np.sum(np.exp(1j * vars)) / N)` with `N = len(vars)`. -/
noncomputable def order_parameter (vars : List ℝ) : ℝ :=
  Complex.abs
    ((vars.map (fun θ => Complex.exp ((θ : ℂ) * Complex.I))).sum / (vars.length : ℂ))

/-- Embedding of the statistics-phase accumulation
`r += order_parameter(vars_nodes) / cal_n` over the recorded trajectory of
states (one state per accumulation step, `cal_n = traj.length` many). -/
noncomputable def accumulatedOrder (traj : List (List ℝ)) : ℝ :=
  traj.foldl (fun r s => r + order_parameter s / traj.length) 0

lemma foldl_add_div (f : List ℝ → ℝ) (c : ℝ) :
    ∀ (l : List (List ℝ)) (r : ℝ),
      l.foldl (fun r s => r + f s / c) r = r + (l.map f).sum / c := by
  intro l
  induction l with
  | nil => intro r; simp
  | cons s tl ih =>
      intro r
      simp only [List.foldl_cons, List.map_cons, List.sum_cons]
      rw [ih]
      ring

lemma abs_sum_exp_le (vars : List ℝ) :
    Complex.abs ((vars.map (fun θ => Complex.exp ((θ : ℂ) * Complex.I))).sum)
      ≤ vars.length := by
  induction vars with
  | nil => simp
  | cons θ tl ih =>
      simp only [List.map_cons, List.sum_cons, List.length_cons]
      calc Complex.abs (Complex.exp ((θ : ℂ) * Complex.I)
              + (tl.map (fun θ => Complex.exp ((θ : ℂ) * Complex.I))).sum)
          ≤ Complex.abs (Complex.exp ((θ : ℂ) * Complex.I))
            + Complex.abs ((tl.map (fun θ => Complex.exp ((θ : ℂ) * Complex.I))).sum) :=
            Complex.abs.add_le _ _
        _ ≤ 1 + tl.length := by
            rw [Complex.abs_exp_ofReal_mul_I]
            exact add_le_add_left ih 1
        _ = ((tl.length + 1 : ℕ) : ℝ) := by push_cast; ring

lemma order_parameter_mem_Icc (vars : List ℝ) :
    order_parameter vars ∈ Set.Icc (0 : ℝ) 1 := by
  refine ⟨Complex.abs.nonneg _, ?_⟩
  unfold order_parameter
  rcases eq_or_ne vars [] with h | h
  · subst h; simp
  · rw [map_div₀, Complex.abs_natCast]
    have hlen : 0 < (vars.length : ℝ) := by
      exact_mod_cast List.length_pos.mpr h
    rw [div_le_one hlen]
    exact abs_sum_exp_le vars

/-- C4: for every nonempty phase (or pseudo-phase) vector the global order
parameter `|Σ exp(i φ_j)| / N` lies in [0, 1], and the time-averaged
synchronization measure accumulated over a nonempty statistics phase lies in
[0, 1] as well. -/
theorem order_parameter_in_unit_interval (vars : List ℝ) (traj : List (List ℝ))
    (hN : 0 < vars.length) (hT : 0 < traj.length) :
    order_parameter vars ∈ Set.Icc (0 : ℝ) 1
    ∧ accumulatedOrder traj ∈ Set.Icc (0 : ℝ) 1 := by
  refine ⟨order_parameter_mem_Icc vars, ?_⟩
  have hsum : accumulatedOrder traj
      = (traj.map order_parameter).sum / traj.length := by
    unfold accumulatedOrder
    rw [foldl_add_div, zero_add]
  have hlen : 0 < (traj.length : ℝ) := by exact_mod_cast hT
  have hnonneg : 0 ≤ (traj.map order_parameter).sum :=
    List.sum_nonneg (by
      intro x hx
      rcases List.mem_map.mp hx with ⟨s, _, rfl⟩
      exact (order_parameter_mem_Icc s).1)
  have hupper : (traj.map order_parameter).sum ≤ traj.length := by
    have := List.sum_le_card_nsmul (traj.map order_parameter) 1 (by
      intro x hx
      rcases List.mem_map.mp hx with ⟨s, _, rfl⟩
      exact (order_parameter_mem_Icc s).2)
    simpa using this
  constructor
  · rw [hsum]
    positivity
  · rw [hsum, div_le_one hlen]
    simpa using hupper

/-- Witness for C4 at the single-phase state 0 and a one-step trajectory. -/
theorem order_parameter_in_unit_interval_witness :
    order_parameter [0] ∈ Set.Icc (0 : ℝ) 1
    ∧ accumulatedOrder [[0]] ∈ Set.Icc (0 : ℝ) 1 :=
  order_parameter_in_unit_interval [0] [[0]] (by decide) (by decide)

/-- Pseudo-phase of one node of the chaotic model:
`np.arctan2(y, x)`, i.e. the argument of the complex number x + i y. -/
noncomputable def pseudoPhase (v : ℚ × ℚ × ℚ) : ℝ :=
  Complex.arg (((v.1 : ℝ) : ℂ) + ((v.2.1 : ℝ) : ℂ) * Complex.I)

namespace RosslerNet

/-- Node parameter alpha = 0.05 of the sweep `net`. -/
def alpha : ℚ := 1 / 20

/-- Node parameter beta = 0.5. -/
def beta : ℚ := 1 / 2

/-- Node parameter R = 100. -/
def R : ℚ := 100

/-- Node parameter mu = 15. -/
def mu : ℚ := 15

/-- Base frequency scale gamma_base = 10000. -/
def gamma_base : ℚ := 10000

/-- Frequency modulation dgamma = 0.2. -/
def dgamma : ℚ := 1 / 5

/-- Integration timestep dt = 0.0001. -/
def dt : ℚ := 1 / 10000

/-- Warm-up steps before the sweep loop: `for _ in range(1_0000)`. -/
def warmupSteps : ℕ := 10000

/-- Relaxation steps per sweep value: `for _ in range(1_0000)`. -/
def relaxSteps : ℕ := 10000

/-- Accumulation steps per sweep value: `cal_n = 10_0000`. -/
def calSteps : ℕ := 100000

/-- Row sums of the adjacency matrix: `degrees = A_adj.sum(axis=1)`. -/
def degrees {n : ℕ} (A : Fin n → Fin n → ℚ) : Fin n → ℚ :=
  fun i => ∑ j, A i j

/-- Per-node frequency scale
`gamma = gamma_base * (1 + dgamma * (degrees-1) / N)`. -/
def gammas {n : ℕ} (A : Fin n → Fin n → ℚ) : Fin n → ℚ :=
  fun i => gamma_base * (1 + dgamma * (degrees A i - 1) / n)

/-- Directed edge list `post_ids, pre_ids = np.nonzero(A_adj)`: row-major
pairs (post, pre), one per nonzero adjacency entry. -/
def nonzeroPairs {n : ℕ} (A : Fin n → Fin n → ℚ) : List (Fin n × Fin n) :=
  (List.finRange n).flatMap (fun i =>
    (List.finRange n).filterMap (fun j => if A i j ≠ 0 then some (i, j) else none))

/-- Vector field of the whole network: `piecewise_Rossler` applied at every
node with its own gamma and coupling input, exactly as numpy broadcasting
evaluates the stacked state matrix. -/
def rosslerNetField {n : ℕ} (gamma Icoup : Fin n → ℚ)
    (st : Fin n → ℚ × ℚ × ℚ) (t : ℚ) : Fin n → ℚ × ℚ × ℚ :=
  fun i => piecewise_Rossler (st i) t (Icoup i) alpha beta R mu (gamma i)

/-- Coupling input of one sweep step:
`Icoup = coupling_func(vars_nodes[0], weight, pre_ids, post_ids)`, the x row
of the state fed to the coupling evaluator with the edge lists of A. -/
def rosslerIcoup {n : ℕ} (A : Fin n → Fin n → ℚ) (w : ℚ)
    (st : Fin n → ℚ × ℚ × ℚ) : Fin n → ℚ :=
  let edges := nonzeroPairs A
  let post_ids := edges.map (fun e => (e.1 : ℕ))
  let pre_ids := edges.map (fun e => (e.2 : ℕ))
  let xrow := List.ofFn (fun i => (st i).1)
  fun i => (coupling_func xrow w pre_ids post_ids).getD i 0

/-- One step of the warm-up loop before the sweep:
`Icoup = np.zeros(N)` followed by one RK4 step.  The vector field ignores
its time argument, so passing t = 0 is exact. -/
def uncoupledStep {n : ℕ} (A : Fin n → Fin n → ℚ)
    (st : Fin n → ℚ × ℚ × ℚ) : Fin n → ℚ × ℚ × ℚ :=
  RK4 (rosslerNetField (gammas A) (fun _ => 0)) st 0 dt

/-- One step of the coupled loops (relaxation and accumulation) at sweep
value w: coupling evaluation on the pre-step x row, then one RK4 step. -/
def coupledStep {n : ℕ} (A : Fin n → Fin n → ℚ) (w : ℚ)
    (st : Fin n → ℚ × ℚ × ℚ) : Fin n → ℚ × ℚ × ℚ :=
  RK4 (rosslerNetField (gammas A) (rosslerIcoup A w st)) st 0 dt

/-- Initial node state: x0 = 0.1, y0 = 0.2, z0 = 0.3 at every node. -/
def initVars (n : ℕ) : Fin n → ℚ × ℚ × ℚ := fun _ => (1/10, 2/10, 3/10)

/-- State after the single initialization and warm-up loop, run once before
the sweep loop over weights. -/
def warmup {n : ℕ} (A : Fin n → Fin n → ℚ) : Fin n → ℚ × ℚ × ℚ :=
  (uncoupledStep A)^[warmupSteps] (initVars n)

/-- Relaxation phase of one sweep value: 10000 coupled steps. -/
def relaxPhase {n : ℕ} (A : Fin n → Fin n → ℚ) (w : ℚ)
    (st : Fin n → ℚ × ℚ × ℚ) : Fin n → ℚ × ℚ × ℚ :=
  (coupledStep A w)^[relaxSteps] st

/-- Accumulation phase of one sweep value: 100000 further coupled steps
(the per-step S accumulation does not feed back into the state). -/
def accumPhase {n : ℕ} (A : Fin n → Fin n → ℚ) (w : ℚ)
    (st : Fin n → ℚ × ℚ × ℚ) : Fin n → ℚ × ℚ × ℚ :=
  (coupledStep A w)^[calSteps] st

/-- Synchronization factor of one sweep value: starting from the state st at
the end of relaxation, after each accumulation step the pseudo-phases are
measured and `S += np.abs(np.sum(np.exp(1j*phi_t)) / N) / cal_n`. -/
noncomputable def accumS {n : ℕ} (A : Fin n → Fin n → ℚ) (w : ℚ)
    (st : Fin n → ℚ × ℚ × ℚ) : ℝ :=
  ((List.range calSteps).map (fun k =>
      order_parameter
        (List.ofFn (fun i => pseudoPhase (((coupledStep A w)^[k+1] st) i))))).sum
    / calSteps

/-- Weight loop of `net(N, A_adj, weight_list)`: for each weight, relaxation
then accumulation, appending the accumulated S and carrying the final state
into the next weight. -/
noncomputable def netAux {n : ℕ} (A : Fin n → Fin n → ℚ) :
    (Fin n → ℚ × ℚ × ℚ) → List ℚ → List ℝ
  | _, [] => []
  | st, w :: ws =>
      accumS A w (relaxPhase A w st)
        :: netAux A (accumPhase A w (relaxPhase A w st)) ws

/-- Sweep driver `net(N, A_adj, weight_list)`: initialize and warm up the
state once, then run the weight loop; returns `S_list`. -/
noncomputable def net {n : ℕ} (A : Fin n → Fin n → ℚ)
    (weight_list : List ℚ) : List ℝ :=
  netAux A (warmup A) weight_list

/-- State of the sweep after the weight blocks of `ws` have been processed,
starting from the warmed-up initial state. -/
def sweepState {n : ℕ} (A : Fin n → Fin n → ℚ) (ws : List ℚ) :
    Fin n → ℚ × ℚ × ℚ :=
  ws.foldl (fun st w => accumPhase A w (relaxPhase A w st)) (warmup A)

/-- State entering the relaxation phase of the k-th sweep value (0-based). -/
def stateEntering {n : ℕ} (A : Fin n → Fin n → ℚ) (ws : List ℚ) (k : ℕ) :
    Fin n → ℚ × ℚ × ℚ :=
  sweepState A (ws.take k)

lemma foldl_take_succ {α β : Type} (f : β → α → β) (b : β) (l : List α)
    (d : α) (k : ℕ) (hk : k + 1 ≤ l.length) :
    (l.take (k + 1)).foldl f b = f ((l.take k).foldl f b) (l.getD k d) := by
  have hk2 : k < l.length := hk
  rw [List.take_succ, List.getElem?_eq_getElem hk2, List.foldl_append]
  simp [List.getD_eq_getElem?_getD, List.getElem?_eq_getElem hk2]

lemma netAux_cons {n : ℕ} (A : Fin n → Fin n → ℚ) (st : Fin n → ℚ × ℚ × ℚ)
    (w : ℚ) (ws : List ℚ) :
    netAux A st (w :: ws)
      = accumS A w (relaxPhase A w st)
        :: netAux A (accumPhase A w (relaxPhase A w st)) ws := rfl

/-- C5: the sweep driver initializes and warms up the node state exactly
once, before the loop over coupling-strength values: the state entering the
first relaxation is the warmed-up initial state, and for every consecutive
pair of values the state entering value k+1 equals the state at the end of
the accumulation phase of value k, with no reset in between. -/
theorem sweep_state_no_reset {n : ℕ} (A : Fin n → Fin n → ℚ) (ws : List ℚ)
    (k : ℕ) (hk : k + 1 ≤ ws.length) :
    stateEntering A ws 0 = warmup A
    ∧ stateEntering A ws (k + 1)
      = accumPhase A (ws.getD k 0)
          (relaxPhase A (ws.getD k 0) (stateEntering A ws k)) := by
  constructor
  · unfold stateEntering sweepState
    rw [List.take_zero, List.foldl_nil]
  · unfold stateEntering sweepState
    exact foldl_take_succ _ _ ws 0 k hk

/-- Witness for C5: a one-node network swept over two weight values; the
state entering the second value equals the end state of the first block. -/
theorem sweep_state_no_reset_witness :
    stateEntering (fun _ _ : Fin 1 => (0 : ℚ)) [1, 2] 1
      = accumPhase (fun _ _ : Fin 1 => (0 : ℚ)) (([1, 2] : List ℚ).getD 0 0)
          (relaxPhase (fun _ _ : Fin 1 => (0 : ℚ)) (([1, 2] : List ℚ).getD 0 0)
            (stateEntering (fun _ _ : Fin 1 => (0 : ℚ)) [1, 2] 0)) :=
  (sweep_state_no_reset (fun _ _ : Fin 1 => (0 : ℚ)) [1, 2] 0 (by decide)).2

/-- C10: before the first coupling-strength value the node state is advanced
through exactly 10000 RK4 steps with the coupling input held identically
zero, starting from the raw initial condition (0.1, 0.2, 0.3); the first
relaxation of the sweep then starts from this uncoupled-warmed state. -/
theorem warmup_before_first_value {n : ℕ} (A : Fin n → Fin n → ℚ) (w : ℚ)
    (rest : List ℚ) :
    warmupSteps = 10000
    ∧ stateEntering A (w :: rest) 0
        = (uncoupledStep A)^[warmupSteps] (initVars n)
    ∧ (∀ st, uncoupledStep A st
        = RK4 (rosslerNetField (gammas A) (fun _ => 0)) st 0 dt)
    ∧ initVars n = (fun _ => (1/10, 2/10, 3/10))
    ∧ net A (w :: rest)
      = accumS A w (relaxPhase A w (warmup A))
        :: netAux A (accumPhase A w (relaxPhase A w (warmup A))) rest := by
  refine ⟨rfl, ?_, fun _ => rfl, rfl, ?_⟩
  · unfold stateEntering sweepState
    rw [List.take_zero, List.foldl_nil]
    unfold warmup
    rfl
  · unfold net
    rw [netAux_cons]

lemma netAux_length {n : ℕ} (A : Fin n → Fin n → ℚ) :
    ∀ (ws : List ℚ) (st : Fin n → ℚ × ℚ × ℚ),
      (netAux A st ws).length = ws.length := by
  intro ws
  induction ws with
  | nil => intro st; rfl
  | cons w tl ih =>
      intro st
      simp only [netAux, List.length_cons]
      rw [ih]

/-- C8 evaluation: the sweep driver is a total function with no
error-signalling return path: for every adjacency matrix and weight list it
runs to completion and returns exactly one accumulated synchronization
measure per weight value.  No post-step finiteness check occurs anywhere in
the loops, so a non-finite state is never surfaced as a fatal error. -/
theorem net_total_no_error_path {n : ℕ} (A : Fin n → Fin n → ℚ)
    (ws : List ℚ) :
    (net A ws).length = ws.length :=
  netAux_length A ws (warmup A)

end RosslerNet

/-- Fin-indexed variant of `np.bincount(ids, weights=ws, minlength=N)` used
on the Kuramoto code paths, where every id is a valid node index: result j
is the sum of the weights whose id equals j, accumulated in order. -/
def bincountF {n : ℕ} {M : Type} [Zero M] [Add M]
    (ids : List (Fin n)) (ws : List M) : Fin n → M :=
  (ids.zip ws).foldl (fun acc p => Function.update acc p.1 (acc p.1 + p.2))
    (fun _ => 0)

/-- Kuramoto vector field `kuramoto(vars, t, omega, c, pre_ids, post_ids)`:
currents `sin(vars[pre_ids] - vars[post_ids])` summed by target index, then
`dvars_dt = omega + c * I_couple`.  Edges are (pre, post) pairs; the time
argument is accepted and ignored, as in the source. -/
noncomputable def kuramoto {n : ℕ} (omega c : Fin n → ℝ)
    (edges : List (Fin n × Fin n)) (vars : Fin n → ℝ) (t : ℝ) : Fin n → ℝ :=
  let currents := edges.map (fun e => Real.sin (vars e.1 - vars e.2))
  let I_couple := bincountF (edges.map Prod.snd) currents
  fun j => omega j + c j * I_couple j

/-- Local order parameter
`local_order_parameter(vars, pre_ids, post_ids, degree_lit)`: the complex
exponentials of the source phases are split into real and imaginary parts,
each summed by target index with bincount, and
`r_local = sqrt(sum_real² + sum_imag²) / degree_lit`.  The division is by
the raw degree with no guard; Lean real division is total (x / 0 = 0), so
the NaN produced by the float source at degree 0 is analysed separately by
the checked variant below. -/
noncomputable def local_order_parameter {n : ℕ} (vars : Fin n → ℝ)
    (edges : List (Fin n × Fin n)) (degree : Fin n → ℝ) : Fin n → ℝ :=
  let sum_real := bincountF (edges.map Prod.snd)
    (edges.map (fun e => Real.cos (vars e.1)))
  let sum_imag := bincountF (edges.map Prod.snd)
    (edges.map (fun e => Real.sin (vars e.1)))
  fun j => Real.sqrt ((sum_real j) ^ 2 + (sum_imag j) ^ 2) / degree j

/-- Division as float hardware performs it: a zero divisor yields a
non-finite result (NaN or Inf), modelled as none. -/
noncomputable def divChecked (x y : ℝ) : Option ℝ :=
  if y = 0 then none else some (x / y)

/-- Per-node value of the local order parameter with the final division
modelled IEEE-faithfully by divChecked; everything before the division is
finite, so a node yields none exactly when its raw degree is zero. -/
noncomputable def local_order_parameter_checked {n : ℕ} (vars : Fin n → ℝ)
    (edges : List (Fin n × Fin n)) (degree : Fin n → ℝ) : Fin n → Option ℝ :=
  let sum_real := bincountF (edges.map Prod.snd)
    (edges.map (fun e => Real.cos (vars e.1)))
  let sum_imag := bincountF (edges.map Prod.snd)
    (edges.map (fun e => Real.sin (vars e.1)))
  fun j => divChecked (Real.sqrt ((sum_real j) ^ 2 + (sum_imag j) ^ 2)) (degree j)

/-- One iteration of the loop body shared by the relaxation and accumulation
loops of the adaptive Kuramoto sweep: compute the local order parameter from
the current state, overwrite the weights of the adaptive nodes with
`weights[Nodes_adaptive] = w * r_local[Nodes_adaptive]`, then advance the
state by one step of `method = Heun`. -/
noncomputable def kuramotoAdaptiveStep {n : ℕ} (w : ℝ)
    (edges : List (Fin n × Fin n)) (degree omega : Fin n → ℝ)
    (adaptive : Finset (Fin n)) (dt : ℝ)
    (s : (Fin n → ℝ) × (Fin n → ℝ)) : (Fin n → ℝ) × (Fin n → ℝ) :=
  let r_local := local_order_parameter s.1 edges degree
  let weights := fun j => if j ∈ adaptive then w * r_local j else s.2 j
  (Heun (kuramoto omega weights edges) s.1 0 dt, weights)

namespace KuramotoNet

/-- Integration timestep dt = 0.05 of the Kuramoto sweep. -/
noncomputable def dt : ℝ := 1 / 20

/-- Relaxation steps per sweep value: `for i in range(200_00)`. -/
def relaxSteps : ℕ := 20000

/-- Accumulation steps per sweep value: `cal_n = 3000_00`. -/
def calSteps : ℕ := 300000

/-- State and weight evolution of one sweep value: the weights are set to
w·ones at the start of the value, then the relaxation loop and the
accumulation loop both iterate exactly kuramotoAdaptiveStep (the per-step r
accumulation reads the state but does not change it). -/
noncomputable def valueBlock {n : ℕ} (w : ℝ) (edges : List (Fin n × Fin n))
    (degree omega : Fin n → ℝ) (adaptive : Finset (Fin n))
    (theta0 : Fin n → ℝ) : (Fin n → ℝ) × (Fin n → ℝ) :=
  (kuramotoAdaptiveStep w edges degree omega adaptive dt)^[relaxSteps + calSteps]
    (theta0, fun _ => w)

end KuramotoNet

/-- C6: starting from the per-value initialization `weights = w * ones(N)`,
on every integration step of the adaptive Kuramoto sweep (the relaxation and
accumulation loops both iterate kuramotoAdaptiveStep) the weight of every
node flagged adaptive is overwritten, before the Heun step, with
`w * r_local` computed from the state current at that step; the weight of a
node not flagged adaptive is never modified by the rule and remains w. -/
theorem adaptive_weight_rule {n : ℕ} (w : ℝ) (edges : List (Fin n × Fin n))
    (degree omega : Fin n → ℝ) (adaptive : Finset (Fin n)) (dt : ℝ)
    (theta0 : Fin n → ℝ) (m : ℕ) :
    (∀ j ∈ adaptive,
      ((kuramotoAdaptiveStep w edges degree omega adaptive dt)^[m + 1]
          (theta0, fun _ => w)).2 j
        = w * local_order_parameter
            (((kuramotoAdaptiveStep w edges degree omega adaptive dt)^[m]
                (theta0, fun _ => w)).1) edges degree j)
    ∧ (∀ j ∉ adaptive,
      ((kuramotoAdaptiveStep w edges degree omega adaptive dt)^[m]
          (theta0, fun _ => w)).2 j = w) := by
  constructor
  · intro j hj
    rw [Function.iterate_succ_apply']
    simp only [kuramotoAdaptiveStep]
    rw [if_pos hj]
  · intro j hj
    induction m with
    | zero => rfl
    | succ m ih =>
        rw [Function.iterate_succ_apply']
        simp only [kuramotoAdaptiveStep]
        rw [if_neg hj]
        exact ih

/-- Witness for C6: two nodes, node 0 adaptive and node 1 not; after the
first step the weight of node 0 is w · r_local of the initial state, and the
weight of node 1 is still w. -/
theorem adaptive_weight_rule_witness :
    ((kuramotoAdaptiveStep 1 ([] : List (Fin 2 × Fin 2)) (fun _ => 0)
        (fun _ => 0) {0} (1 / 20))^[0 + 1] ((fun _ => 0), fun _ => 1)).2 0
      = 1 * local_order_parameter
          (((kuramotoAdaptiveStep 1 ([] : List (Fin 2 × Fin 2)) (fun _ => 0)
              (fun _ => 0) {0} (1 / 20))^[0] ((fun _ => 0), fun _ => 1)).1)
          ([] : List (Fin 2 × Fin 2)) (fun _ => 0) 0
    ∧ ((kuramotoAdaptiveStep 1 ([] : List (Fin 2 × Fin 2)) (fun _ => 0)
        (fun _ => 0) {0} (1 / 20))^[0] ((fun _ => 0), fun _ => 1)).2 1 = 1 := by
  have h := adaptive_weight_rule 1 ([] : List (Fin 2 × Fin 2)) (fun _ => 0)
    (fun _ => 0) {0} (1 / 20) (fun _ => 0) 0
  exact ⟨h.1 0 (by decide), h.2 1 (by decide)⟩

/-- C7 evaluation at the failing input: on a topology whose node has
in-degree zero (here a single isolated node, empty edge list, raw degree 0)
the local order parameter divides the zero numerator by the raw degree 0
with no guard; under IEEE float semantics this is 0/0, a NaN, so the checked
embedding returns none rather than a well-defined finite value. -/
theorem local_order_parameter_degree_zero_nan :
    local_order_parameter_checked (fun _ : Fin 1 => 0) [] (fun _ => 0) 0
      = none := by
  simp [local_order_parameter_checked, divChecked]

/-- C9 counterexample: a single Kuramoto node with natural frequency 1 and
no incoming edges starts at phase π, which lies in (−π, π]; one Heun step
with the notebook timestep dt = 0.05 moves the phase to π + 0.05, which is
outside (−π, π].  The integrators apply no wrapping to the phases. -/
theorem kuramoto_phase_leaves_interval :
    (fun _ : Fin 1 => Real.pi) 0 ∈ Set.Ioc (-Real.pi) Real.pi
    ∧ Heun (kuramoto (fun _ : Fin 1 => 1) (fun _ => 1) [])
        (fun _ => Real.pi) 0 (1 / 20) 0 ∉ Set.Ioc (-Real.pi) Real.pi := by
  have hval : Heun (kuramoto (fun _ : Fin 1 => 1) (fun _ => 1) [])
      (fun _ => Real.pi) 0 (1 / 20) 0 = Real.pi + 1 / 20 := by
    simp [Heun, kuramoto, bincountF, Pi.add_apply, Pi.smul_apply, smul_eq_mul]
    ring
  constructor
  · exact ⟨by linarith [Real.pi_pos], le_refl _⟩
  · rw [hval]
    intro hmem
    have := hmem.2
    linarith

/-- C9 amended: the Kuramoto integration applies no wrapping: with no
incoming edges a Heun step translates every phase by exactly dt · ω, so the
phases are unbounded rather than confined to (−π, π]. -/
theorem kuramoto_heun_translates_phases {n : ℕ} (omega c vars : Fin n → ℝ)
    (t dt : ℝ) (j : Fin n) :
    Heun (kuramoto omega c []) vars t dt j = vars j + dt * omega j := by
  simp [Heun, kuramoto, bincountF, Pi.add_apply, Pi.smul_apply, smul_eq_mul]
  ring

end PaperRepeat
